import Mathlib

/-!
Verification of the ledger core of the Blockchain-Tutorial repository
(`src/blockchain.py`), as a shallow embedding in Lean 4.

Modelling conventions:
* Python `int` is `Int`; non-negative counters are `Nat`.
* Python exceptions (`IndexError` on `chain[0]` / `chain[-1]` of an empty
  list) are modelled by `Option`: `none` is the raised-exception outcome.
* Block timestamps come from `time()` (a float).  The embedding restricts
  timestamps to whole-second values, modelled as `Nat`; their JSON
  serialization is the Python `repr` of the corresponding float,
  `"<n>.0"`.  No claim depends on fractional timestamps.
* `hashlib.sha256` is implemented in full (FIPS 180-4) over byte lists,
  with `Nat` arithmetic, so that hashes of concrete blocks evaluate
  inside the kernel.
* `json.dumps(obj, sort_keys=True)` is implemented character-for-character
  (default separators `", "` / `": "`, `ensure_ascii=True` escaping).
-/

namespace BCT

/-! ## SHA-256 (FIPS 180-4), executable over `Nat` -/

def mask32 : Nat := 4294967295

/-- Right rotation of a 32-bit word. -/
def rotr (n x : Nat) : Nat := ((x >>> n) ||| (x <<< (32 - n))) &&& mask32

/-- The 64 SHA-256 round constants (FIPS 180-4 §4.2.2, in decimal). -/
def shaK : List Nat :=
  [1116352408, 1899447441, 3049323471, 3921009573, 961987163, 1508970993,
   2453635748, 2870763221, 3624381080, 310598401, 607225278, 1426881987,
   1925078388, 2162078206, 2614888103, 3248222580, 3835390401, 4022224774,
   264347078, 604807628, 770255983, 1249150122, 1555081692, 1996064986,
   2554220882, 2821834349, 2952996808, 3210313671, 3336571891, 3584528711,
   113926993, 338241895, 666307205, 773529912, 1294757372, 1396182291,
   1695183700, 1986661051, 2177026350, 2456956037, 2730485921, 2820302411,
   3259730800, 3345764771, 3516065817, 3600352804, 4094571909, 275423344,
   430227734, 506948616, 659060556, 883997877, 958139571, 1322822218,
   1537002063, 1747873779, 1955562222, 2024104815, 2227730452, 2361852424,
   2428436474, 2756734187, 3204031479, 3329325298]

/-- Initial hash value (FIPS 180-4 §5.3.3, in decimal). -/
def shaH0 : List Nat :=
  [1779033703, 3144134277, 1013904242, 2773480762,
   1359893119, 2600822924, 528734635, 1541459225]

/-- One step of the message-schedule extension; `ws` holds the schedule
so far in reverse order. -/
def schedStep (ws : List Nat) : List Nat :=
  let w2 := ws.getD 1 0
  let w7 := ws.getD 6 0
  let w15 := ws.getD 14 0
  let w16 := ws.getD 15 0
  let s0 := (rotr 7 w15) ^^^ (rotr 18 w15) ^^^ (w15 >>> 3)
  let s1 := (rotr 17 w2) ^^^ (rotr 19 w2) ^^^ (w2 >>> 10)
  ((w16 + s0 + w7 + s1) &&& mask32) :: ws

/-- Extend 16 message words to the 64-word schedule. -/
def sched (block : List Nat) : List Nat :=
  ((List.range 48).foldl (fun ws _ => schedStep ws) block.reverse).reverse

/-- The eight working registers of the compression function. -/
structure Regs where
  a : Nat
  b : Nat
  c : Nat
  d : Nat
  e : Nat
  f : Nat
  g : Nat
  h : Nat

/-- One compression round. -/
def round1 (r : Regs) (k w : Nat) : Regs :=
  let s1 := (rotr 6 r.e) ^^^ (rotr 11 r.e) ^^^ (rotr 25 r.e)
  let ch := (r.e &&& r.f) ^^^ ((r.e ^^^ mask32) &&& r.g)
  let t1 := (r.h + s1 + ch + k + w) &&& mask32
  let s0 := (rotr 2 r.a) ^^^ (rotr 13 r.a) ^^^ (rotr 22 r.a)
  let mj := (r.a &&& r.b) ^^^ (r.a &&& r.c) ^^^ (r.b &&& r.c)
  let t2 := (s0 + mj) &&& mask32
  ⟨(t1 + t2) &&& mask32, r.a, r.b, r.c, (r.d + t1) &&& mask32, r.e, r.f, r.g⟩

/-- Compress one 16-word block into the running hash value. -/
def processBlock (hs : List Nat) (block : List Nat) : List Nat :=
  let w := sched block
  let r0 : Regs := ⟨hs.getD 0 0, hs.getD 1 0, hs.getD 2 0, hs.getD 3 0,
                    hs.getD 4 0, hs.getD 5 0, hs.getD 6 0, hs.getD 7 0⟩
  let r := (shaK.zip w).foldl (fun s kw => round1 s kw.1 kw.2) r0
  [(hs.getD 0 0 + r.a) &&& mask32, (hs.getD 1 0 + r.b) &&& mask32,
   (hs.getD 2 0 + r.c) &&& mask32, (hs.getD 3 0 + r.d) &&& mask32,
   (hs.getD 4 0 + r.e) &&& mask32, (hs.getD 5 0 + r.f) &&& mask32,
   (hs.getD 6 0 + r.g) &&& mask32, (hs.getD 7 0 + r.h) &&& mask32]

/-- SHA-256 padding: append `0x80`, zeros, and the 64-bit big-endian
message bit length, reaching a multiple of 64 bytes. -/
def shaPad (msg : List Nat) : List Nat :=
  let len := msg.length
  let bitLen := 8 * len
  let z := (119 - len % 64) % 64
  msg ++ 0x80 :: List.replicate z 0 ++
    [(bitLen >>> 56) &&& 255, (bitLen >>> 48) &&& 255, (bitLen >>> 40) &&& 255,
     (bitLen >>> 32) &&& 255, (bitLen >>> 24) &&& 255, (bitLen >>> 16) &&& 255,
     (bitLen >>> 8) &&& 255, bitLen &&& 255]

/-- Group a padded byte list into 32-bit big-endian words (fuel-driven
structural recursion; fuel `≥ length` suffices). -/
def toWords : Nat → List Nat → List Nat
  | 0, _ => []
  | _, [] => []
  | fuel + 1, b0 :: b1 :: b2 :: b3 :: rest =>
      ((b0 <<< 24) ||| (b1 <<< 16) ||| (b2 <<< 8) ||| b3) :: toWords fuel rest
  | _ + 1, l => [l.foldl (fun acc b => (acc <<< 8) ||| b) 0]

/-- Split a word list into 16-word blocks. -/
def toBlocks : Nat → List Nat → List (List Nat)
  | 0, _ => []
  | _, [] => []
  | fuel + 1, l => l.take 16 :: toBlocks fuel (l.drop 16)

/-- Raw SHA-256 of a byte list: the eight final hash words. -/
def sha256Words (msg : List Nat) : List Nat :=
  let padded := shaPad msg
  let ws := toWords padded.length padded
  (toBlocks ws.length ws).foldl processBlock shaH0

/-- Lowercase hexadecimal digit. -/
def hexDigitChar (n : Nat) : Char :=
  ("0123456789abcdef").data.getD n 'f'

/-- Eight hex characters of one 32-bit word. -/
def wordHex (w : Nat) : List Char :=
  [hexDigitChar (w / 0x10000000 % 16), hexDigitChar (w / 0x1000000 % 16),
   hexDigitChar (w / 0x100000 % 16), hexDigitChar (w / 0x10000 % 16),
   hexDigitChar (w / 0x1000 % 16), hexDigitChar (w / 0x100 % 16),
   hexDigitChar (w / 0x10 % 16), hexDigitChar (w % 16)]

/-- `hashlib.sha256(bytes).hexdigest()`: 64 lowercase hex characters. -/
def sha256hex (msg : List Nat) : List Char :=
  ((sha256Words msg).map wordHex).flatten

/-- UTF-8 encoding of one character (`str.encode()` in Python). -/
def utf8Bytes (c : Char) : List Nat :=
  let n := c.toNat
  if n < 0x80 then [n]
  else if n < 0x800 then [0xC0 ||| (n >>> 6), 0x80 ||| (n &&& 0x3F)]
  else if n < 0x10000 then
    [0xE0 ||| (n >>> 12), 0x80 ||| ((n >>> 6) &&& 0x3F), 0x80 ||| (n &&& 0x3F)]
  else
    [0xF0 ||| (n >>> 18), 0x80 ||| ((n >>> 12) &&& 0x3F),
     0x80 ||| ((n >>> 6) &&& 0x3F), 0x80 ||| (n &&& 0x3F)]

/-- UTF-8 encoding of a character list. -/
def strUtf8 (s : List Char) : List Nat := (s.map utf8Bytes).flatten

/-! ## Decimal rendering (Python f-string / `json.dumps` of an `int`) -/

/-- One decimal digit character. -/
def digitChar (n : Nat) : Char :=
  ("0123456789").data.getD n '9'

/-- Decimal digits of a natural number, most significant first
(fuel-driven; fuel `≥ n` suffices). -/
def natStrAux : Nat → Nat → List Char
  | 0, n => [digitChar (n % 10)]
  | fuel + 1, n =>
      if n < 10 then [digitChar n]
      else natStrAux fuel (n / 10) ++ [digitChar (n % 10)]

/-- Decimal rendering of a natural number. -/
def natStr (n : Nat) : List Char := natStrAux n n

/-- Decimal rendering of a Python `int` (`f"{i}"`). -/
def intStr (i : Int) : List Char :=
  if i < 0 then '-' :: natStr i.natAbs else natStr i.natAbs

/-! ## `json.dumps(..., sort_keys=True)` string escaping (`ensure_ascii`) -/

/-- Four lowercase hex digits (`"%04x"`). -/
def hex4 (n : Nat) : List Char :=
  [hexDigitChar (n / 4096 % 16), hexDigitChar (n / 256 % 16),
   hexDigitChar (n / 16 % 16), hexDigitChar (n % 16)]

/-- JSON escape of a single character, exactly as Python's
`json.encoder.py_encode_basestring_ascii`: `"` and `\` get two-character
escapes, the five short control escapes apply, all remaining control
characters and all non-ASCII characters become `\uXXXX` (a surrogate
pair for code points beyond the BMP), and printable ASCII is literal. -/
def escC (c : Char) : List Char :=
  let n := c.toNat
  if n = 34 then ['\\', '"']
  else if n = 92 then ['\\', '\\']
  else if n = 8 then ['\\', 'b']
  else if n = 9 then ['\\', 't']
  else if n = 10 then ['\\', 'n']
  else if n = 12 then ['\\', 'f']
  else if n = 13 then ['\\', 'r']
  else if n < 32 then '\\' :: 'u' :: hex4 n
  else if n < 127 then [c]
  else if n < 65536 then '\\' :: 'u' :: hex4 n
  else '\\' :: 'u' :: hex4 (55296 + (n - 65536) / 1024) ++
       '\\' :: 'u' :: hex4 (56320 + (n - 65536) % 1024)

/-- JSON escape of a character list. -/
def esc (s : List Char) : List Char := (s.map escC).flatten

/-- A JSON string literal: quote, escaped body, quote. -/
def jsonStr (s : List Char) : List Char := '"' :: esc s ++ ['"']

/-! ## Data model (`src/blockchain.py`) -/

/-- `Transaction`: sender, recipient, amount. -/
structure Transaction where
  sender : String
  recipient : String
  amount : Int
deriving DecidableEq

/-- `Block`: index, timestamp, transactions, proof, previous hash.
The timestamp is restricted to whole seconds (see the module header). -/
structure Block where
  index : Int
  timestamp : Nat
  transactions : List Transaction
  proof : Int
  previous_hash : String
deriving DecidableEq

/-- `Blockchain.__init__` state: chain, pending pool, peer set.  The
peer set is modelled as a list of netloc strings in insertion order. -/
structure Ledger where
  chain : List Block
  current_transactions : List Transaction
  nodes : List String
deriving DecidableEq

/-- `json.dumps(transaction.to_dict(), sort_keys=True)`: keys in sorted
order `amount`, `recipient`, `sender`, default separators. -/
def txString (t : Transaction) : List Char :=
  '\x7b' :: ("\"amount\": ").data ++ intStr t.amount ++
  (", \"recipient\": ").data ++ jsonStr t.recipient.data ++
  (", \"sender\": ").data ++ jsonStr t.sender.data ++ ['\x7d']

/-- Join serialized array items with the default `", "` separator. -/
def sepByCommaSpace : List (List Char) → List Char
  | [] => []
  | [x] => x
  | x :: xs => x ++ ',' :: ' ' :: sepByCommaSpace xs

/-- The serialized `transactions` array, order preserved. -/
def txsString (ts : List Transaction) : List Char :=
  '[' :: sepByCommaSpace (ts.map txString) ++ [']']

/-- `json.dumps(block.to_dict(), sort_keys=True)`: keys in sorted order
`index`, `previous_hash`, `proof`, `timestamp`, `transactions`.  The
timestamp float `n.0` renders as `"<n>.0"`. -/
def blockString (b : Block) : List Char :=
  '\x7b' :: ("\"index\": ").data ++ intStr b.index ++
  (", \"previous_hash\": ").data ++ jsonStr b.previous_hash.data ++
  (", \"proof\": ").data ++ intStr b.proof ++
  (", \"timestamp\": ").data ++ natStr b.timestamp ++ '.' :: '0' ::
  (", \"transactions\": ").data ++ txsString b.transactions ++ ['\x7d']

namespace Blockchain

/-- `Blockchain.hash`: SHA-256 hex digest of the block's canonical
(sorted-keys) JSON serialization, UTF-8 encoded. -/
def hash (b : Block) : String := String.mk (sha256hex (strUtf8 (blockString b)))

/-- `Blockchain.validate_proof`: the SHA-256 hex digest of the decimal
concatenation `f"{last_proof}{proof}"` must start with `"0000"`. -/
def validate_proof (last_proof proof : Int) : Bool :=
  (sha256hex (strUtf8 (intStr last_proof ++ intStr proof))).take 4 = ('0' :: '0' :: '0' :: ['0'])

/-- The loop body of `Blockchain.validate_chain` from index 1 on:
checks each block's `previous_hash` against the hash of its
predecessor, and the proof pair, returning false on first violation. -/
def walk (last : Block) : List Block → Bool
  | [] => true
  | b :: bs =>
      if b.previous_hash ≠ hash last then false
      else if ¬ validate_proof last.proof b.proof then false
      else walk b bs

/-- `Blockchain.validate_chain`.  The unguarded `chain[0]` raises
`IndexError` on an empty candidate, modelled as `none`. -/
def validate_chain (chain : List Block) : Option Bool :=
  match chain with
  | [] => none
  | first :: rest => some (walk first rest)

/-- `Blockchain.new_block(proof, previous_hash)` at timestamp `ts`.
The Python default argument plus the `previous_hash or
self.hash(self.chain[-1])` expression: a `None` **or falsy** (empty
string) argument selects the hash of the last block, and `chain[-1]`
on an empty chain raises (`none`). -/
def new_block (l : Ledger) (proof : Int) (previous_hash : Option String)
    (ts : Nat) : Option (Block × Ledger) :=
  let prevGiven : Option String :=
    match previous_hash with
    | some s => if s = "" then none else some s
    | none => none
  let mk : String → Block × Ledger := fun ph =>
    let b : Block := ⟨(l.chain.length : Int) + 1, ts, l.current_transactions, proof, ph⟩
    (b, { l with chain := l.chain ++ [b], current_transactions := [] })
  match prevGiven with
  | some ph => some (mk ph)
  | none =>
      match l.chain.getLast? with
      | none => none
      | some lb => some (mk (hash lb))

/-- `Blockchain.new_transaction(sender, recipient, amount)`: appends to
the pending pool and returns `self.last_block.index + 1`; `last_block`
on an empty chain raises (`none`). -/
def new_transaction (l : Ledger) (sender recipient : String) (amount : Int) :
    Option (Int × Ledger) :=
  match l.chain.getLast? with
  | none => none
  | some lb =>
      some (lb.index + 1,
        { l with current_transactions :=
            l.current_transactions ++ [⟨sender, recipient, amount⟩] })

/-- `Blockchain.proof_of_work(last_proof)`: the `while` loop starting
at 0 and incrementing by 1 returns the least valid proof; termination
is the stated existence hypothesis. -/
def proof_of_work (last_proof : Int)
    (ex : ∃ n : Nat, validate_proof last_proof (n : Int) = true) : Nat :=
  Nat.find ex

/-- `Blockchain.register_node(address)`: set insertion of the parsed
netloc (URL parsing is the out-of-scope stdlib collaborator; the model
receives its output). -/
def register_node (l : Ledger) (netloc : String) : Ledger :=
  { l with nodes := if netloc ∈ l.nodes then l.nodes else l.nodes ++ [netloc] }

/-- A block as it arrives over the wire: `response.json()["chain"]`
yields plain dicts, not `Block` objects, whatever the source's
`list[Block]` annotation claims.  Per the wire contract the dict
carries the five block keys (a wire transaction carries the three
transaction keys and is represented by `Transaction`).  The type is
kept distinct from `Block` because the runtime behaviour of dicts
under attribute access differs from `Block` objects. -/
structure BlockDict where
  index : Int
  timestamp : Nat
  transactions : List Transaction
  proof : Int
  previous_hash : String
deriving DecidableEq

/-- The `Block` carrying a wire object's five field values, used to
record entries that `resolve_conflicts` installs into `self.chain`
(the source assigns the parsed dicts themselves; the settled claims
depend only on their field values). -/
def BlockDict.toBlock (d : BlockDict) : Block :=
  ⟨d.index, d.timestamp, d.transactions, d.proof, d.previous_hash⟩

/-- `Blockchain.validate_chain` as it actually executes on a fetched
peer chain, i.e. on the plain dicts of `response.json()["chain"]`:
`chain[0]` raises `IndexError` on an empty candidate; on a single
entry the `while` body never runs and the method returns `True`
without reading any field; on two or more entries the first
iteration's `block.previous_hash` is an attribute access on a dict
and raises `AttributeError`.  Either raise is `none`. -/
def validate_chain_wire (chain : List BlockDict) : Option Bool :=
  match chain with
  | [] => none
  | [_] => some true
  | _ :: _ :: _ => none

/-- One peer's reply to `GET /chain`, as consumed by
`resolve_conflicts`: HTTP status, the advertised `"length"` field, and
the advertised `"chain"` array of wire objects. -/
structure PeerResponse where
  status : Nat
  length : Int
  chain : List BlockDict
deriving DecidableEq

/-- One iteration of the `resolve_conflicts` scan: a 200-status reply
whose advertised length beats the running maximum gets validated
(short-circuit `and`) — on the parsed dicts, so via
`validate_chain_wire`; `none` propagates the raise.  The
`some false` branch mirrors the source's failed-validation path; on
dicts it is unreachable (validation raises instead of returning
`False` on multi-entry candidates). -/
def scanStep (acc : Int × List BlockDict) (r : PeerResponse) :
    Option (Int × List BlockDict) :=
  if r.status = 200 then
    if r.length > acc.1 then
      match validate_chain_wire r.chain with
      | none => none
      | some true => some (r.length, r.chain)
      | some false => some acc
    else some acc
  else some acc

/-- `Blockchain.resolve_conflicts`, with the network collaborator's
replies supplied as a list (one per scanned node, in scan order).
Returns the flag and the resulting ledger; the final `if new_chain:`
replaces the chain exactly when a candidate was accepted, installing
the accepted wire entries (recorded by their field values). -/
def resolve_conflicts (l : Ledger) (responses : List PeerResponse) :
    Option (Bool × Ledger) :=
  match responses.foldlM scanStep ((l.chain.length : Int), ([] : List BlockDict)) with
  | none => none
  | some (_, new_chain) =>
      if new_chain ≠ [] then
        some (true, { l with chain := new_chain.map BlockDict.toBlock })
      else some (false, l)

/-- The genesis block created by `Blockchain.__init__` via
`self.new_block(proof=100, previous_hash="1")` at timestamp `ts`. -/
def genesisBlock (ts : Nat) : Block := ⟨1, ts, [], 100, "1"⟩

/-- `Blockchain.__init__` at timestamp `ts`. -/
def init (ts : Nat) : Ledger := ⟨[genesisBlock ts], [], []⟩

/-- The constructor is the `new_block` call the source makes. -/
theorem init_eq_new_block (ts : Nat) :
    new_block ⟨[], [], []⟩ 100 (some "1") ts = some (genesisBlock ts, init ts) := rfl

/-- The per-pair requirement `validate_chain` imposes on consecutive
blocks: stored `previous_hash` matches the recomputed predecessor hash
and the proof pair validates. -/
def linked (a b : Block) : Prop :=
  b.previous_hash = hash a ∧ validate_proof a.proof b.proof = true

instance : DecidableRel linked := fun a b => by unfold linked; infer_instance

/-- The validation walk succeeds exactly when every consecutive pair is
`linked`. -/
theorem walk_iff_chain (last : Block) (rest : List Block) :
    walk last rest = true ↔ List.Chain linked last rest := by
  induction rest generalizing last with
  | nil => simp [walk]
  | cons b bs ih =>
      rw [walk, List.chain_cons]
      by_cases h1 : b.previous_hash = hash last
      · by_cases h2 : validate_proof last.proof b.proof = true
        · simp [h1, h2, ih, linked]
        · simp [h1, h2, linked]
      · simp [h1, linked]

/-- `defaultedPrev previous_hash lb` is the previous-hash value
`new_block` stores: the argument when truthy, else `hash lb`. -/
def defaultedPrev (previous_hash : Option String) (lb : Block) : String :=
  match previous_hash with
  | some s => if s = "" then hash lb else s
  | none => hash lb

/-- The block `new_block` constructs when the chain's last block is `lb`. -/
def sealedBlock (l : Ledger) (proof : Int) (previous_hash : Option String)
    (ts : Nat) (lb : Block) : Block :=
  ⟨(l.chain.length : Int) + 1, ts, l.current_transactions, proof,
    defaultedPrev previous_hash lb⟩

/-- On a non-empty chain, `new_block` returns exactly the sealed block
and the updated ledger. -/
theorem new_block_eq (l : Ledger) (p : Int) (ph : Option String) (ts : Nat)
    (lb : Block) (hlb : l.chain.getLast? = some lb) :
    new_block l p ph ts =
      some (sealedBlock l p ph ts lb,
        { l with chain := l.chain ++ [sealedBlock l p ph ts lb],
                 current_transactions := [] }) := by
  unfold new_block sealedBlock defaultedPrev
  match ph with
  | none => simp [hlb]
  | some s =>
      by_cases hs : s = "" <;> simp [hs, hlb]

end Blockchain

open Blockchain

/-! ## Claims -/

/-- Claim C9: `validate_chain` is partial exactly at the empty input:
its error branch (`none`, the `IndexError` from the unguarded
`chain[0]`) is taken iff the candidate is empty, and every single-block
chain validates to `true`. -/
theorem claim_C9 (c : List Block) :
    (validate_chain c = none ↔ c = []) ∧
    (∀ b : Block, validate_chain [b] = some true) := by
  constructor
  · cases c <;> simp [validate_chain]
  · intro b
    rfl

/-- Claim C8: on a ledger with non-empty chain (last block `lb`),
`new_transaction` appends exactly one transaction with the given fields
to the end of the pending pool, leaves the chain and the peer set
unchanged, and returns `last_block.index + 1`; on a fresh ledger the
returned value is `2`. -/
theorem claim_C8 (l : Ledger) (lb : Block) (hlb : l.chain.getLast? = some lb)
    (s r : String) (a : Int) :
    new_transaction l s r a =
      some (lb.index + 1,
        { l with current_transactions := l.current_transactions ++ [⟨s, r, a⟩] }) ∧
    (∀ ts : Nat, (new_transaction (init ts) s r a).map Prod.fst = some 2) := by
  constructor
  · unfold new_transaction
    rw [hlb]
  · intro ts
    rfl

/-- Witness for C8 at a fresh ledger and the scenario-A transaction. -/
theorem claim_C8_witness :
    new_transaction (init 0) "A" "B" 10 =
      some ((genesisBlock 0).index + 1,
        { init 0 with current_transactions :=
            (init 0).current_transactions ++ [⟨"A", "B", 10⟩] }) ∧
    (∀ ts : Nat, (new_transaction (init ts) "A" "B" 10).map Prod.fst = some 2) :=
  claim_C8 (init 0) (genesisBlock 0) rfl "A" "B" 10

/-- Claim C10: `new_block` treats every falsy `previous_hash` argument
like an omitted one: with the empty string the sealed block stores the
hash of the last block, and only a non-empty string is stored
verbatim. -/
theorem claim_C10 (l : Ledger) (lb : Block) (hlb : l.chain.getLast? = some lb)
    (p : Int) (ts : Nat) :
    ((new_block l p (some "") ts).map fun q => q.1.previous_hash) = some (hash lb) ∧
    (∀ s : String, s ≠ "" →
      ((new_block l p (some s) ts).map fun q => q.1.previous_hash) = some s) ∧
    ((new_block l p none ts).map fun q => q.1.previous_hash) = some (hash lb) := by
  refine ⟨?_, ?_, ?_⟩
  · rw [new_block_eq l p (some "") ts lb hlb]
    simp [sealedBlock, defaultedPrev]
  · intro s hs
    rw [new_block_eq l p (some s) ts lb hlb]
    simp [sealedBlock, defaultedPrev, hs]
  · rw [new_block_eq l p none ts lb hlb]
    simp [sealedBlock, defaultedPrev]

/-- Witness for C10 on the fresh ledger: sealing with `""` stores the
genesis hash, sealing with `"abc"` stores `"abc"`. -/
theorem claim_C10_witness :
    ((new_block (init 0) 5 (some "") 1).map fun q => q.1.previous_hash) =
      some (hash (genesisBlock 0)) ∧
    (∀ s : String, s ≠ "" →
      ((new_block (init 0) 5 (some s) 1).map fun q => q.1.previous_hash) = some s) ∧
    ((new_block (init 0) 5 none 1).map fun q => q.1.previous_hash) =
      some (hash (genesisBlock 0)) :=
  claim_C10 (init 0) (genesisBlock 0) rfl 5 1

set_option maxRecDepth 20000 in
/-- Counterexample to claim C2 as stated: `seal_block` called with the
explicitly given `previous_hash = ""` does **not** store `""` (the
Python `or` treats it as falsy and substitutes the last block's hash),
so "previous_hash is h when given" fails at `h = ""`. -/
theorem claim_C2_cex :
    ((new_block (init 0) 5 (some "") 1).map fun q => q.1.previous_hash) ≠
      some "" := by
  decide

/-- Claim C2 (amended: a given `previous_hash` is stored verbatim only
when it is non-empty; an empty string, like an omitted argument, is
replaced by the hash of the last block): on a non-empty chain with last
block `lb`, `new_block p ph` returns the block with index
`len(chain)+1`, the pending pool as transactions, proof `p`, and the
defaulted previous hash; the block is appended and the pool cleared,
with the peer set untouched. -/
theorem claim_C2 (l : Ledger) (lb : Block) (hlb : l.chain.getLast? = some lb)
    (p : Int) (ph : Option String) (ts : Nat) :
    new_block l p ph ts =
      some (⟨(l.chain.length : Int) + 1, ts, l.current_transactions, p,
              defaultedPrev ph lb⟩,
        ⟨l.chain ++ [⟨(l.chain.length : Int) + 1, ts, l.current_transactions, p,
              defaultedPrev ph lb⟩], [], l.nodes⟩) := by
  rw [new_block_eq l p ph ts lb hlb]
  rfl

/-- Witness for C2 on the fresh ledger. -/
theorem claim_C2_witness :
    new_block (init 0) 5 none 1 =
      some (⟨((init 0).chain.length : Int) + 1, 1, (init 0).current_transactions, 5,
              defaultedPrev none (genesisBlock 0)⟩,
        ⟨(init 0).chain ++ [⟨((init 0).chain.length : Int) + 1, 1,
              (init 0).current_transactions, 5, defaultedPrev none (genesisBlock 0)⟩],
          [], (init 0).nodes⟩) :=
  claim_C2 (init 0) (genesisBlock 0) rfl 5 none 1

/-- Claim C4: on a non-empty candidate, `validate_chain` returns `true`
iff every consecutive pair satisfies both checks (stored
`previous_hash` equals the recomputed predecessor hash, and the proof
pair validates); equivalently it returns `false` exactly when some
consecutive pair violates one of them, and no independent check is made
on the head block. -/
theorem claim_C4 (c : List Block) (hne : c ≠ []) :
    validate_chain c = some true ↔
      ∀ i, (hi : i < c.length) → 0 < i →
        ((c.get ⟨i, hi⟩).previous_hash = hash (c.get ⟨i - 1, by omega⟩) ∧
          validate_proof (c.get ⟨i - 1, by omega⟩).proof (c.get ⟨i, hi⟩).proof = true) := by
  match c, hne with
  | first :: rest, _ =>
      rw [show validate_chain (first :: rest) = some (walk first rest) from rfl]
      rw [Option.some_inj, walk_iff_chain, List.chain_iff_get]
      constructor
      · rintro ⟨h0, hs⟩ i hi hpos
        match i, hpos with
        | 1, _ =>
            match rest, hi, h0, hs with
            | b :: bs, _, h0, _ => exact h0 (by simp)
        | (j + 2), _ =>
            have hj : j + 1 < rest.length := by
              have := hi
              simp only [List.length_cons] at this
              omega
            have := hs j (by omega)
            simpa using this
      · intro hp
        constructor
        · intro h0
          have := hp 1 (by simpa using h0) (by omega)
          simpa using this
        · intro i hi
          have := hp (i + 2) (by simpa using (by omega : i + 2 < rest.length + 1)) (by omega)
          simpa using this

set_option maxRecDepth 40000 in
/-- Auxiliary existence fact for the C3 witness: `35293` is a valid
proof for `last_proof = 100` (its SHA-256 digest starts `0000`). -/
theorem pow100_ex : ∃ n : Nat, validate_proof 100 (n : Int) = true :=
  ⟨35293, by decide⟩

/-- Claim C3: whenever a valid proof exists for `p`, `proof_of_work p`
returns the least non-negative integer `q` with
`validate_proof p q = true`; in particular the returned proof
validates. -/
theorem claim_C3 (p : Int) (ex : ∃ n : Nat, validate_proof p (n : Int) = true) :
    validate_proof p ((proof_of_work p ex : Nat) : Int) = true ∧
    ∀ m : Nat, m < proof_of_work p ex → validate_proof p (m : Int) ≠ true :=
  ⟨Nat.find_spec ex, fun _ hm => Nat.find_min ex hm⟩

/-- Witness for C3 at `p = 100`, where a valid proof exists. -/
theorem claim_C3_witness :
    validate_proof 100 ((proof_of_work 100 pow100_ex : Nat) : Int) = true :=
  (claim_C3 100 pow100_ex).1

/-- `growChain` folds a sequence of `seal_block` calls (proof and
timestamp each, default `previous_hash`) over a ledger, exactly as a
caller invoking `new_block(proof=p)` repeatedly. -/
def growChain (l : Ledger) : List (Int × Nat) → Option Ledger
  | [] => some l
  | (p, ts) :: rest =>
      match new_block l p none ts with
      | none => none
      | some (_, l') => growChain l' rest

set_option maxRecDepth 40000 in
/-- Counterexample to claim C5 as stated: sealing one block with the
(arbitrary) proof `0` on a fresh ledger produces a chain that
`validate_chain` rejects, because `seal_block` never checks the
supplied proof and `validate_proof(100, 0)` is false
(`sha256("1000")` starts `"4051"`). -/
theorem claim_C5_cex :
    (growChain (init 0) [(0, 1)]).map (fun l => validate_chain l.chain) =
      some (some false) := by
  decide

/-- The validation walk over a chain extended by one block succeeds iff
the walk over the original chain succeeds and the new block is linked
to the old last block. -/
theorem walk_snoc (last : Block) (rest : List Block) (b lb : Block)
    (hlb : (last :: rest).getLast? = some lb) :
    walk last (rest ++ [b]) = true ↔ (walk last rest = true ∧ linked lb b) := by
  induction rest generalizing last with
  | nil =>
      simp only [List.getLast?_singleton, Option.some_inj] at hlb
      subst hlb
      simp only [List.nil_append, walk, linked]
      by_cases h1 : b.previous_hash = hash last
      · by_cases h2 : validate_proof last.proof b.proof = true <;> simp [h1, h2]
      · simp [h1]
  | cons c cs ih =>
      have hlb' : (c :: cs).getLast? = some lb := by
        rw [List.getLast?_cons_cons] at hlb
        exact hlb
      rw [List.cons_append, walk, walk]
      by_cases h1 : c.previous_hash = hash last
      · by_cases h2 : validate_proof last.proof c.proof = true
        · simp only [h1, h2]
          simpa using ih c hlb'
        · simp [h1, h2]
      · simp [h1]

/-- Appending a block linked to the last block of a valid chain keeps
the chain valid. -/
theorem validate_chain_snoc (c : List Block) (lb b : Block)
    (hlast : c.getLast? = some lb) (hvc : validate_chain c = some true)
    (hlink : linked lb b) :
    validate_chain (c ++ [b]) = some true := by
  match c, hlast with
  | first :: rest, hlast =>
      rw [show validate_chain (first :: rest) = some (walk first rest) from rfl,
        Option.some_inj] at hvc
      rw [List.cons_append,
        show validate_chain (first :: (rest ++ [b])) =
          some (walk first (rest ++ [b])) from rfl, Option.some_inj]
      exact (walk_snoc first rest b lb hlast).2 ⟨hvc, hlink⟩

/-- Growth invariant: from a valid non-empty chain, sealing blocks
whose proofs validate in sequence against the running last proof keeps
the chain valid. -/
theorem grow_valid (seals : List (Int × Nat)) (l : Ledger) (lb : Block)
    (hlast : l.chain.getLast? = some lb)
    (hvc : validate_chain l.chain = some true)
    (hvalid : List.Chain (fun a b => validate_proof a b = true) lb.proof
      (seals.map Prod.fst)) :
    ∃ l', growChain l seals = some l' ∧ validate_chain l'.chain = some true := by
  induction seals generalizing l lb with
  | nil => exact ⟨l, rfl, hvc⟩
  | cons pt rest ih =>
      obtain ⟨p, ts⟩ := pt
      rw [List.map_cons, List.chain_cons] at hvalid
      have hnb := new_block_eq l p none ts lb hlast
      have hl' := validate_chain_snoc l.chain lb (sealedBlock l p none ts lb)
        hlast hvc ⟨rfl, hvalid.1⟩
      have hlast' :
          (l.chain ++ [sealedBlock l p none ts lb]).getLast? =
            some (sealedBlock l p none ts lb) := by
        simp
      have := ih
        { l with chain := l.chain ++ [sealedBlock l p none ts lb],
                 current_transactions := [] }
        (sealedBlock l p none ts lb) hlast' hl' hvalid.2
      obtain ⟨l', h1, h2⟩ := this
      refine ⟨l', ?_, h2⟩
      rw [show growChain l ((p, ts) :: rest) =
        match new_block l p none ts with
        | none => none
        | some (_, l') => growChain l' rest from rfl, hnb]
      exact h1

/-- Claim C5 (amended: the proofs supplied to the successive
`seal_block` calls must each satisfy `validate_proof` against the
previous block's proof — starting from the genesis proof 100 — since
`seal_block` itself never verifies proofs): every chain grown from the
generated genesis block by such seals passes `validate_chain`. -/
theorem claim_C5 (ts0 : Nat) (seals : List (Int × Nat))
    (hvalid : List.Chain (fun a b => validate_proof a b = true) 100
      (seals.map Prod.fst)) :
    (growChain (init ts0) seals).map (fun l => validate_chain l.chain) =
      some (some true) := by
  obtain ⟨l', h1, h2⟩ :=
    grow_valid seals (init ts0) (genesisBlock ts0) rfl rfl hvalid
  rw [h1, Option.map_some', h2]

set_option maxRecDepth 40000 in
/-- Witness for C5: one seal with the genuinely valid proof 35293. -/
theorem claim_C5_witness :
    (growChain (init 0) [(35293, 1)]).map (fun l => validate_chain l.chain) =
      some (some true) :=
  claim_C5 0 [(35293, 1)] (List.Chain.cons (by decide) List.Chain.nil)

/-- A wire candidate with exactly one entry passes the validation
walk (the loop body never runs). -/
theorem validate_chain_wire_singleton (c : List BlockDict) (h : c.length = 1) :
    validate_chain_wire c = some true := by
  rcases c with _ | ⟨d, _ | ⟨e, rest⟩⟩
  · simp at h
  · rfl
  · simp only [List.length_cons] at h
    omega

/-- A wire candidate the validation walk accepted is non-empty. -/
theorem wire_true_ne_nil (c : List BlockDict)
    (h : validate_chain_wire c = some true) : c ≠ [] := by
  intro he
  subst he
  simp [validate_chain_wire] at h

/-- Full characterization of the `resolve_conflicts` scan when every
status-200 response advertising a length above the starting maximum
has exactly one wire entry (otherwise `validate_chain` raises
`IndexError` or `AttributeError` on the parsed dicts the moment such a
candidate is examined): the scan succeeds; the running maximum never
decreases; every qualifying response (status 200, advertised length
beating the initial maximum, passing the wire validation) has
advertised length at most the final maximum; and the final accumulator
either is the initial one (then nothing changed) or is the advertised
length and chain of some qualifying response. -/
theorem scan_go (rs : List PeerResponse) (m : Int) (b : List BlockDict)
    (hne : ∀ r ∈ rs, r.status = 200 → r.length > m → r.chain.length = 1) :
    ∃ m' b', rs.foldlM scanStep (m, b) = some (m', b') ∧
      m ≤ m' ∧
      (∀ r ∈ rs, r.status = 200 → r.length > m →
        validate_chain_wire r.chain = some true → r.length ≤ m') ∧
      ((b' = b ∧ m' = m) ∨
        (∃ r ∈ rs, r.status = 200 ∧ validate_chain_wire r.chain = some true ∧
          b' = r.chain ∧ m' = r.length ∧ m < m')) := by
  induction rs generalizing m b with
  | nil =>
      exact ⟨m, b, by simp, le_refl m, by simp, Or.inl ⟨rfl, rfl⟩⟩
  | cons r rest ih =>
      have hner : ∀ q ∈ rest, q.status = 200 → q.length > m → q.chain.length = 1 :=
        fun q hq => hne q (List.mem_cons_of_mem r hq)
      by_cases h200 : r.status = 200
      · by_cases hlen : r.length > m
        · rcases hv : validate_chain_wire r.chain with _ | bv
          · exact absurd
              (validate_chain_wire_singleton r.chain
                (hne r (List.mem_cons_self r rest) h200 hlen))
              (by rw [hv]; simp)
          · cases bv
            · -- failed validation: accumulator unchanged (unreachable on
              -- dicts, but the source's code path exists)
              have hstep : scanStep (m, b) r = some (m, b) := by
                unfold scanStep
                rw [if_pos h200, if_pos hlen, hv]
              obtain ⟨m', b', heq, hle, hmax, hdisj⟩ := ih m b hner
              refine ⟨m', b', ?_, hle, ?_, ?_⟩
              · rw [List.foldlM_cons, hstep]
                exact heq
              · intro q hq hq200 hqlen hqv
                rcases List.mem_cons.mp hq with rfl | hq'
                · rw [hv] at hqv
                  exact absurd hqv (by simp)
                · exact hmax q hq' hq200 hqlen hqv
              · rcases hdisj with hsame | ⟨q, hq, hrest⟩
                · exact Or.inl hsame
                · exact Or.inr ⟨q, List.mem_cons_of_mem r hq, hrest⟩
            · -- accepted candidate: accumulator becomes (r.length, r.chain)
              have hstep : scanStep (m, b) r = some (r.length, r.chain) := by
                unfold scanStep
                rw [if_pos h200, if_pos hlen, hv]
              have hner2 : ∀ q ∈ rest, q.status = 200 → q.length > r.length →
                  q.chain.length = 1 :=
                fun q hq hq200 hql => hner q hq hq200 (lt_trans hlen hql)
              obtain ⟨m', b', heq, hle, hmax, hdisj⟩ := ih r.length r.chain hner2
              refine ⟨m', b', ?_, le_of_lt (lt_of_lt_of_le hlen hle), ?_, ?_⟩
              · rw [List.foldlM_cons, hstep]
                exact heq
              · intro q hq hq200 hqlen hqv
                rcases List.mem_cons.mp hq with rfl | hq'
                · exact le_trans (le_refl q.length) hle
                · by_cases hql : q.length > r.length
                  · exact hmax q hq' hq200 hql hqv
                  · exact le_trans (le_of_not_lt hql) hle
              · rcases hdisj with ⟨hb', hm'⟩ | ⟨q, hq, hq200, hqv, hb', hm', hlt⟩
                · exact Or.inr ⟨r, List.mem_cons_self r rest, h200, hv, hb',
                    hm', lt_of_lt_of_le hlen (le_of_eq hm'.symm)⟩
                · exact Or.inr ⟨q, List.mem_cons_of_mem r hq, hq200, hqv, hb',
                    hm', lt_trans hlen hlt⟩
        · -- advertised length does not beat the running maximum: skipped
          have hstep : scanStep (m, b) r = some (m, b) := by
            unfold scanStep
            rw [if_pos h200, if_neg hlen]
          obtain ⟨m', b', heq, hle, hmax, hdisj⟩ := ih m b hner
          refine ⟨m', b', ?_, hle, ?_, ?_⟩
          · rw [List.foldlM_cons, hstep]
            exact heq
          · intro q hq hq200 hqlen hqv
            rcases List.mem_cons.mp hq with rfl | hq'
            · exact absurd hqlen hlen
            · exact hmax q hq' hq200 hqlen hqv
          · rcases hdisj with hsame | ⟨q, hq, hrest⟩
            · exact Or.inl hsame
            · exact Or.inr ⟨q, List.mem_cons_of_mem r hq, hrest⟩
      · -- non-200 response: skipped
        have hstep : scanStep (m, b) r = some (m, b) := by
          unfold scanStep
          rw [if_neg h200]
        obtain ⟨m', b', heq, hle, hmax, hdisj⟩ := ih m b hner
        refine ⟨m', b', ?_, hle, ?_, ?_⟩
        · rw [List.foldlM_cons, hstep]
          exact heq
        · intro q hq hq200 hqlen hqv
          rcases List.mem_cons.mp hq with rfl | hq'
          · exact absurd hq200 h200
          · exact hmax q hq' hq200 hqlen hqv
        · rcases hdisj with hsame | ⟨q, hq, hrest⟩
          · exact Or.inl hsame
          · exact Or.inr ⟨q, List.mem_cons_of_mem r hq, hrest⟩

/-- Counterexample to claim C1 as stated: `resolve_conflicts` compares
the peer-advertised `"length"` field, not the length of the fetched
chain.  A peer that advertises `length = 2` for a single-entry chain
(the only kind the dict-level validation can accept without raising)
makes a fresh node (local chain length 1) replace its chain and return
true, although no fetched peer chain is strictly longer than the local
chain. -/
theorem claim_C1_cex :
    resolve_conflicts (init 0) [⟨200, 2, [⟨9, 9, [], 9, "9"⟩]⟩] =
      some (true, ⟨[⟨9, 9, [], 9, "9"⟩], [], []⟩) ∧
    (⟨200, 2, [⟨9, 9, [], 9, "9"⟩]⟩ : PeerResponse).chain.length =
      (init 0).chain.length := by
  constructor
  · rfl
  · rfl

/-- Claim C1 (amended in three respects forced by the code: (a) the
comparison is against the peer-advertised `length` field, not the
actual length of the fetched chain; (b) the fetched chain is the
parsed JSON — plain dicts — so `validate_chain` raises on every
examined candidate without exactly one entry (`IndexError` when
empty, `AttributeError` at the first dict attribute access
otherwise); completion therefore needs the hypothesis that every
status-200 response advertising a length above the local chain length
has a single-entry chain; (c) what gets installed are the wire
entries, recorded by their field values): under that hypothesis the
scan succeeds, and the chain is replaced iff some status-200 response
advertises a length strictly greater than the local chain length and
its fetched chain passes the dict-level validation (its single entry
makes the walk trivially succeed); on replacement the installed chain
is that of such a response whose advertised length is maximal among
all such responses, and only the chain changes; otherwise the ledger
is returned unchanged. -/
theorem claim_C1 (l : Ledger) (rs : List PeerResponse)
    (hne : ∀ r ∈ rs, r.status = 200 → r.length > (l.chain.length : Int) →
      r.chain.length = 1) :
    ∃ replaced l', resolve_conflicts l rs = some (replaced, l') ∧
      (replaced = true ↔ ∃ r ∈ rs, r.status = 200 ∧
        r.length > (l.chain.length : Int) ∧
        validate_chain_wire r.chain = some true) ∧
      (replaced = false → l' = l) ∧
      (replaced = true → ∃ r ∈ rs, r.status = 200 ∧
        r.length > (l.chain.length : Int) ∧
        validate_chain_wire r.chain = some true ∧
        l' = { l with chain := r.chain.map BlockDict.toBlock } ∧
        (∀ q ∈ rs, q.status = 200 → q.length > (l.chain.length : Int) →
          validate_chain_wire q.chain = some true → q.length ≤ r.length)) := by
  obtain ⟨m', b', heq, hle, hmax, hdisj⟩ :=
    scan_go rs (l.chain.length : Int) [] hne
  rcases hdisj with ⟨hb', hm'⟩ | ⟨r, hr, h200, hv, hb', hm', hlt⟩
  · refine ⟨false, l, ?_, ?_, fun _ => rfl, by simp⟩
    · unfold resolve_conflicts
      rw [heq, hb']
      simp
    · simp only [Bool.false_eq_true, false_iff]
      rintro ⟨r, hr, h200, hlen, hv⟩
      have := hmax r hr h200 hlen hv
      omega
  · refine ⟨true, { l with chain := r.chain.map BlockDict.toBlock }, ?_, ?_,
      by simp, ?_⟩
    · unfold resolve_conflicts
      rw [heq, hb']
      have : r.chain ≠ [] := wire_true_ne_nil r.chain hv
      simp [this]
    · simp only [true_iff]
      exact ⟨r, hr, h200, by omega, hv⟩
    · intro _
      refine ⟨r, hr, h200, by omega, hv, rfl, ?_⟩
      intro q hq hq200 hqlen hqv
      have := hmax q hq hq200 hqlen hqv
      omega

/-- Witness for C1: a fresh node scanning two peers, one advertising a
longer chain with a single wire entry and one replying with a non-200
status. -/
theorem claim_C1_witness :
    ∃ replaced l', resolve_conflicts (init 0)
        [⟨404, 9, []⟩, ⟨200, 2, [⟨2, 1, [], 42, "w"⟩]⟩] = some (replaced, l') ∧
      (replaced = true ↔ ∃ r ∈ [(⟨404, 9, []⟩ : PeerResponse),
         ⟨200, 2, [⟨2, 1, [], 42, "w"⟩]⟩],
         r.status = 200 ∧ r.length > (((init 0).chain.length : Int)) ∧
           validate_chain_wire r.chain = some true) ∧
      (replaced = false → l' = init 0) ∧
      (replaced = true → ∃ r ∈ [(⟨404, 9, []⟩ : PeerResponse),
         ⟨200, 2, [⟨2, 1, [], 42, "w"⟩]⟩],
         r.status = 200 ∧ r.length > (((init 0).chain.length : Int)) ∧
           validate_chain_wire r.chain = some true ∧
           l' = { init 0 with chain := r.chain.map BlockDict.toBlock } ∧
           (∀ q ∈ [(⟨404, 9, []⟩ : PeerResponse),
             ⟨200, 2, [⟨2, 1, [], 42, "w"⟩]⟩],
             q.status = 200 → q.length > (((init 0).chain.length : Int)) →
               validate_chain_wire q.chain = some true →
               q.length ≤ r.length)) :=
  claim_C1 (init 0) [⟨404, 9, []⟩, ⟨200, 2, [⟨2, 1, [], 42, "w"⟩]⟩]
    (by
      intro r hr h200 hlen
      rcases List.mem_cons.mp hr with rfl | hr'
      · simp at h200
      · rcases List.mem_cons.mp hr' with rfl | hr''
        · rfl
        · simp at hr'')

/-- The mutating operations a client can drive a `Blockchain` object
through after construction. -/
inductive Op where
  | submit (sender recipient : String) (amount : Int)
  | seal_block (proof : Int) (previous_hash : Option String) (ts : Nat)
  | register (netloc : String)
  | resolve (responses : List PeerResponse)

/-- Apply one operation, discarding its return value; `none` is a
raised exception. -/
def applyOp (l : Ledger) : Op → Option Ledger
  | Op.submit s r a => (new_transaction l s r a).map Prod.snd
  | Op.seal_block p ph ts => (new_block l p ph ts).map Prod.snd
  | Op.register n => some (register_node l n)
  | Op.resolve rs => (resolve_conflicts l rs).map Prod.snd

/-- Run a sequence of operations from a starting state. -/
def runOps (l : Ledger) : List Op → Option Ledger
  | [] => some l
  | op :: ops =>
      match applyOp l op with
      | none => none
      | some l' => runOps l' ops

/-- Proof, previous hash and transactions of the first block of the
chain, when there is one. -/
def headInfo (l : Ledger) : Option (Int × String × List Transaction) :=
  l.chain.head?.map fun b => (b.proof, b.previous_hash, b.transactions)

/-- A rogue wire entry a peer could advertise: not genesis-shaped. -/
def rogueDict : BlockDict := ⟨5, 0, [], 7, "zzz"⟩

/-- Counterexample to claim C6 as stated: `resolve_conflicts` installs
the single wire entry of a status-200 response advertising a length
above the local chain length without any check on its content (a
single-entry candidate is the only kind the dict-level validation
accepts, and the walk reads none of its fields).  After one
`resolve_conflicts` against a peer advertising `rogueDict`, `chain[0]`
has proof 7 (not 100) and previous hash `"zzz"` (not `"1"`). -/
theorem claim_C6_cex :
    (runOps (init 0) [Op.resolve [⟨200, 2, [rogueDict]⟩]]).map headInfo =
      some (some (7, "zzz", [])) := by
  decide

/-- The peer-free operations: every operation except
`resolve_conflicts`. -/
def opLocal : Op → Prop
  | Op.resolve _ => False
  | _ => True

/-- One peer-free step preserves the genesis head. -/
theorem step_preserves (l : Ledger) (op : Op) (l' : Ledger)
    (hok : opLocal op) (hstep : applyOp l op = some l')
    (hinv : headInfo l = some (100, "1", [])) :
    headInfo l' = some (100, "1", []) := by
  obtain ⟨hd, tl, hchain⟩ : ∃ hd tl, l.chain = hd :: tl := by
    rcases hc : l.chain with _ | ⟨hd, tl⟩
    · rw [headInfo, hc] at hinv
      simp at hinv
    · exact ⟨hd, tl, rfl⟩
  cases op with
  | submit s r a =>
      rw [applyOp] at hstep
      rcases hl : l.chain.getLast? with _ | lb
      · rw [hchain] at hl
        simp at hl
      · rw [new_transaction, hl] at hstep
        simp only [Option.map_some', Option.some_inj] at hstep
        rw [← hstep, headInfo]
        exact hinv
  | seal_block p ph ts =>
      rcases hl : l.chain.getLast? with _ | lb
      · rw [hchain] at hl
        simp at hl
      · rw [applyOp, new_block_eq l p ph ts lb hl] at hstep
        simp only [Option.map_some', Option.some_inj] at hstep
        rw [← hstep, headInfo]
        simp only [hchain, List.cons_append, List.head?_cons, Option.map_some']
        rw [headInfo, hchain] at hinv
        simpa using hinv
  | register n =>
      rw [applyOp, register_node] at hstep
      simp only [Option.some_inj] at hstep
      rw [← hstep, headInfo]
      exact hinv
  | resolve rs =>
      exact absurd hok (by simp [opLocal])

/-- Peer-free runs preserve the genesis head, from any start state
that has it. -/
theorem runOps_preserves (ops : List Op) (l0 l : Ledger)
    (hops : ∀ op ∈ ops, opLocal op) (hrun : runOps l0 ops = some l)
    (hinv : headInfo l0 = some (100, "1", [])) :
    headInfo l = some (100, "1", []) := by
  induction ops generalizing l0 with
  | nil =>
      rw [runOps] at hrun
      rw [← Option.some_inj.mp hrun]
      exact hinv
  | cons op ops ih =>
      rw [runOps] at hrun
      rcases ha : applyOp l0 op with _ | l1
      · rw [ha] at hrun
        simp at hrun
      · rw [ha] at hrun
        exact ih l1 (fun q hq => hops q (List.mem_cons_of_mem op hq)) hrun
          (step_preserves l0 op l1 (hops op (List.mem_cons_self op ops)) ha hinv)

/-- Claim C6 (amended: the quantified operations are
`submit_transaction`, `seal_block` and `register_node`;
`resolve_conflicts` is excluded because it does not preserve the
invariant — a completing call either leaves the chain unchanged or
installs the single wire entry of a status-200 response, whose fields
are unconstrained, while multi-entry candidates make `validate_chain`
raise on the parsed dicts instead of being checked): in every state
reached from construction by the peer-free operations, `chain[0]` has
proof 100, previous hash `"1"`, and an empty transaction list. -/
theorem claim_C6 (ts : Nat) (ops : List Op) (l : Ledger)
    (hops : ∀ op ∈ ops, opLocal op) (hrun : runOps (init ts) ops = some l) :
    headInfo l = some (100, "1", []) :=
  runOps_preserves ops (init ts) l hops hrun rfl

/-- Witness for C6: a run of all three peer-free operation kinds from a
fresh ledger. -/
theorem claim_C6_witness :
    headInfo ⟨[genesisBlock 0,
        ⟨2, 1, [⟨"A", "B", 10⟩], 0, hash (genesisBlock 0)⟩], [], ["x"]⟩ =
      some (100, "1", []) :=
  claim_C6 0
    [Op.submit "A" "B" 10, Op.seal_block 0 none 1, Op.register "x"]
    ⟨[genesisBlock 0, ⟨2, 1, [⟨"A", "B", 10⟩], 0, hash (genesisBlock 0)⟩],
      [], ["x"]⟩
    (by
      intro op hop
      rcases List.mem_cons.mp hop with rfl | hop'
      · trivial
      · rcases List.mem_cons.mp hop' with rfl | hop''
        · trivial
        · rcases List.mem_cons.mp hop'' with rfl | h
          · trivial
          · simp at h)
    rfl

/-! ## A verified left inverse of the serializer (for claim C7)

To show that reordering the transaction list changes the canonical
serialization for **every** block — arbitrary sender/recipient strings
included, so escaping must be inverted — we build a decoder and prove
it recovers the transaction list (as code points) from the serialized
form.  Injectivity of the serializer in the `transactions` component
follows. -/

/-- Decimal digit value of a character. -/
def digitVal (c : Char) : Option Nat :=
  if 48 ≤ c.toNat ∧ c.toNat ≤ 57 then some (c.toNat - 48) else none

/-- Greedily split leading decimal digits (as values) from the rest. -/
def parseDigits : List Char → (List Nat × List Char)
  | [] => ([], [])
  | c :: r =>
      match digitVal c with
      | some d => (d :: (parseDigits r).1, (parseDigits r).2)
      | none => ([], c :: r)

/-- One-step unfolding of `parseDigits` on a cons cell. -/
theorem parseDigits_cons (c : Char) (r : List Char) :
    parseDigits (c :: r) =
      match digitVal c with
      | some d => (d :: (parseDigits r).1, (parseDigits r).2)
      | none => ([], c :: r) := rfl

/-- Value of a most-significant-first digit list. -/
def valOf (ds : List Nat) : Nat := ds.foldl (fun a d => a * 10 + d) 0

/-- Parse a non-empty run of decimal digits. -/
def parseNat (l : List Char) : Option (Nat × List Char) :=
  if (parseDigits l).1 = [] then none
  else some (valOf (parseDigits l).1, (parseDigits l).2)

/-- Parse an optional minus sign followed by digits. -/
def parseInt (l : List Char) : Option (Int × List Char) :=
  match l with
  | [] => none
  | c :: r =>
      if c = '-' then (parseNat r).map fun p => (-(p.1 : Int), p.2)
      else (parseNat (c :: r)).map fun p => ((p.1 : Int), p.2)

/-- Each digit character produced by `digitChar` decodes to its value. -/
theorem digitVal_digitChar (d : Nat) (h : d < 10) :
    digitVal (digitChar d) = some d := by
  have hall : ∀ k : Fin 10, digitVal (digitChar k.val) = some k.val := by decide
  exact hall ⟨d, h⟩

/-- Splitting an all-digit prefix off a non-digit-headed tail. -/
theorem parseDigits_append (l rest : List Char)
    (hl : ∀ c ∈ l, (digitVal c).isSome)
    (hrest : ∀ c, rest.head? = some c → digitVal c = none) :
    parseDigits (l ++ rest) = (l.map fun c => (digitVal c).getD 0, rest) := by
  induction l with
  | nil =>
      cases rest with
      | nil => rfl
      | cons c r =>
          have := hrest c rfl
          simp only [List.nil_append, List.map_nil, parseDigits, this]
  | cons c cs ih =>
      have hc := hl c (List.mem_cons_self c cs)
      rcases hd : digitVal c with _ | d
      · rw [hd] at hc
        simp at hc
      · have ih' := ih fun x hx => hl x (List.mem_cons_of_mem c hx)
        rw [List.cons_append, parseDigits_cons, hd, ih', List.map_cons, hd]
        rfl

/-- `natStrAux` output is all digits and re-evaluates to its input. -/
theorem natStrAux_spec (fuel : Nat) : ∀ n, n ≤ fuel →
    (∀ c ∈ natStrAux fuel n, (digitVal c).isSome) ∧
    valOf ((natStrAux fuel n).map fun c => (digitVal c).getD 0) = n := by
  induction fuel with
  | zero =>
      intro n hn
      have hn0 : n = 0 := by omega
      subst hn0
      refine ⟨?_, by decide⟩
      intro c hc
      simp only [natStrAux, List.mem_singleton] at hc
      rw [hc]
      decide
  | succ fuel ih =>
      intro n hn
      by_cases h10 : n < 10
      · constructor
        · intro c hc
          simp only [natStrAux, if_pos h10] at hc
          rw [List.mem_singleton.mp hc, digitVal_digitChar n h10]
          rfl
        · simp only [natStrAux, if_pos h10, List.map_cons, List.map_nil,
            digitVal_digitChar n h10]
          simp [valOf]
      · have hdiv : n / 10 ≤ fuel := by omega
        obtain ⟨ihd, ihv⟩ := ih (n / 10) hdiv
        constructor
        · intro c hc
          simp only [natStrAux, if_neg h10, List.mem_append,
            List.mem_singleton] at hc
          rcases hc with hc | hc
          · exact ihd c hc
          · rw [hc, digitVal_digitChar (n % 10) (by omega)]
            rfl
        · simp only [natStrAux, if_neg h10, List.map_append, List.map_cons,
            List.map_nil, valOf, List.foldl_append]
          rw [digitVal_digitChar (n % 10) (by omega)]
          have : ((natStrAux fuel (n / 10)).map fun c =>
              (digitVal c).getD 0).foldl (fun a d => a * 10 + d) 0 = n / 10 := ihv
          simp only [List.foldl_cons, List.foldl_nil, this, Option.getD_some]
          omega

/-- `natStr` output is non-empty. -/
theorem natStrAux_ne_nil (fuel n : Nat) : natStrAux fuel n ≠ [] := by
  cases fuel with
  | zero => simp [natStrAux]
  | succ f =>
      by_cases h : n < 10 <;> simp [natStrAux, h]

/-- Parsing the decimal rendering of `n` followed by a non-digit. -/
theorem parseNat_natStr (n : Nat) (rest : List Char)
    (hrest : ∀ c, rest.head? = some c → digitVal c = none) :
    parseNat (natStr n ++ rest) = some (n, rest) := by
  obtain ⟨hd, hv⟩ := natStrAux_spec n n (le_refl n)
  rcases he : natStrAux n n with _ | ⟨c, cs⟩
  · exact absurd he (natStrAux_ne_nil n n)
  · have hpa := parseDigits_append _ _ hd hrest
    rw [he] at hpa hv
    rw [List.map_cons] at hpa hv
    simp only [parseNat, natStr, he, hpa]
    simp [hv]

/-- A digit character is not the minus sign. -/
theorem digit_ne_minus (c : Char) (h : (digitVal c).isSome) : c ≠ '-' := by
  intro he
  rw [he] at h
  simp [digitVal] at h

/-- Parsing the decimal rendering of any `Int` followed by a
non-digit. -/
theorem parseInt_intStr (i : Int) (rest : List Char)
    (hrest : ∀ c, rest.head? = some c → digitVal c = none) :
    parseInt (intStr i ++ rest) = some (i, rest) := by
  by_cases hneg : i < 0
  · rw [intStr, if_pos hneg, List.cons_append]
    simp only [parseInt, if_true, ite_true]
    rw [parseNat_natStr i.natAbs rest hrest]
    simp only [Option.map_some', Option.some_inj, Prod.mk.injEq]
    exact ⟨by omega, trivial⟩
  · rw [intStr, if_neg hneg]
    obtain ⟨hd, _⟩ := natStrAux_spec i.natAbs i.natAbs (le_refl i.natAbs)
    rcases he : natStrAux i.natAbs i.natAbs with _ | ⟨c, cs⟩
    · exact absurd he (natStrAux_ne_nil _ _)
    · have hc : (digitVal c).isSome :=
        hd c (by rw [he]; exact List.mem_cons_self c cs)
      have hnm : ¬(c = '-') := digit_ne_minus c hc
      rw [natStr, he, List.cons_append]
      simp only [parseInt]
      rw [if_neg hnm, ← List.cons_append, ← he, ← natStr,
        parseNat_natStr i.natAbs rest hrest]
      simp only [Option.map_some', Option.some_inj, Prod.mk.injEq]
      exact ⟨by omega, trivial⟩

/-- Hexadecimal digit value of a character (lowercase). -/
def hexVal (c : Char) : Option Nat :=
  if 48 ≤ c.toNat ∧ c.toNat ≤ 57 then some (c.toNat - 48)
  else if 97 ≤ c.toNat ∧ c.toNat ≤ 102 then some (c.toNat - 87)
  else none

/-- Value of four hex digit characters. -/
def hex4Val (a b c d : Char) : Option Nat :=
  match hexVal a, hexVal b, hexVal c, hexVal d with
  | some x, some y, some z, some w => some (((x * 16 + y) * 16 + z) * 16 + w)
  | _, _, _, _ => none

/-- Each hex digit produced by `hexDigitChar` decodes to its value. -/
theorem hexVal_hexDigitChar (d : Nat) (h : d < 16) :
    hexVal (hexDigitChar d) = some d := by
  have hall : ∀ k : Fin 16, hexVal (hexDigitChar k.val) = some k.val := by decide
  exact hall ⟨d, h⟩

/-- Reading back the four hex digits produced by `hex4`. -/
theorem hex4Val_hex4 (n : Nat) (h : n < 65536) :
    hex4Val (hexDigitChar (n / 4096 % 16)) (hexDigitChar (n / 256 % 16))
      (hexDigitChar (n / 16 % 16)) (hexDigitChar (n % 16)) = some n := by
  rw [hex4Val, hexVal_hexDigitChar _ (by omega), hexVal_hexDigitChar _ (by omega),
    hexVal_hexDigitChar _ (by omega), hexVal_hexDigitChar _ (by omega)]
  rw [Option.some_inj]
  omega

/-- Code point of a two-character JSON escape. -/
def escCode (e : Char) : Option Nat :=
  if e = '"' then some 34
  else if e = '\\' then some 92
  else if e = 'b' then some 8
  else if e = 't' then some 9
  else if e = 'n' then some 10
  else if e = 'f' then some 12
  else if e = 'r' then some 13
  else none

/-- Decode a JSON-escaped string body up to its closing quote,
returning the decoded code points and the input after the quote
(fuel-driven; one unit of fuel per decoded code point). -/
def unesc : Nat → List Char → Option (List Nat × List Char)
  | 0, _ => none
  | _ + 1, [] => none
  | f + 1, c :: r =>
      if c = '"' then some ([], r)
      else if c = '\\' then
        match r with
        | 'u' :: h1 :: h2 :: h3 :: h4 :: r3 =>
            match hex4Val h1 h2 h3 h4 with
            | none => none
            | some v =>
                if 55296 ≤ v ∧ v < 56320 then
                  match r3 with
                  | '\\' :: 'u' :: g1 :: g2 :: g3 :: g4 :: r4 =>
                      match hex4Val g1 g2 g3 g4 with
                      | none => none
                      | some w =>
                          (unesc f r4).map fun p =>
                            ((65536 + (v - 55296) * 1024 + (w - 56320)) :: p.1, p.2)
                  | _ => none
                else (unesc f r3).map fun p => (v :: p.1, p.2)
        | e :: r2 =>
            match escCode e with
            | none => none
            | some v => (unesc f r2).map fun p => (v :: p.1, p.2)
        | [] => none
      else (unesc f r).map fun p => (c.toNat :: p.1, p.2)

/-- Valid Unicode scalar values avoid the surrogate range. -/
theorem char_range (c : Char) :
    c.toNat < 55296 ∨ (57343 < c.toNat ∧ c.toNat < 1114112) := by
  have h := c.valid
  rcases h with h | h
  · left
    exact h
  · right
    exact h

/-- `esc` distributes over cons. -/
theorem esc_cons (c : Char) (cs : List Char) :
    esc (c :: cs) = escC c ++ esc cs := by
  simp [esc]

/-- The decoder inverts the escaper: decoding the escape of `s`
followed by a closing quote yields the code points of `s` and the
input after the quote. -/
theorem unesc_esc (s : List Char) : ∀ (f : Nat), s.length < f →
    ∀ rest : List Char,
    unesc f (esc s ++ '"' :: rest) = some (s.map Char.toNat, rest) := by
  induction s with
  | nil =>
      intro f hf rest
      match f, hf with
      | f' + 1, _ =>
          simp [esc, unesc]
  | cons c cs ih =>
      intro f hf rest
      match f, hf with
      | f' + 1, hf =>
          have ihf := ih f' (by simp at hf ⊢; omega) rest
          rw [esc_cons, List.append_assoc]
          by_cases h34 : c.toNat = 34
          · have hesc : escC c = ['\\', '"'] := by simp [escC, h34]
            rw [hesc]
            simp [unesc, escCode, ihf, h34]
          · by_cases h92 : c.toNat = 92
            · have hesc : escC c = ['\\', '\\'] := by simp [escC, h34, h92]
              rw [hesc]
              simp [unesc, escCode, ihf, h92]
            · by_cases h8 : c.toNat = 8
              · have hesc : escC c = ['\\', 'b'] := by
                  simp [escC, h34, h92, h8]
                rw [hesc]
                simp [unesc, escCode, ihf, h8]
              · by_cases h9 : c.toNat = 9
                · have hesc : escC c = ['\\', 't'] := by
                    simp [escC, h34, h92, h8, h9]
                  rw [hesc]
                  simp [unesc, escCode, ihf, h9]
                · by_cases h10 : c.toNat = 10
                  · have hesc : escC c = ['\\', 'n'] := by
                      simp [escC, h34, h92, h8, h9, h10]
                    rw [hesc]
                    simp [unesc, escCode, ihf, h10]
                  · by_cases h12 : c.toNat = 12
                    · have hesc : escC c = ['\\', 'f'] := by
                        simp [escC, h34, h92, h8, h9, h10, h12]
                      rw [hesc]
                      simp [unesc, escCode, ihf, h12]
                    · by_cases h13 : c.toNat = 13
                      · have hesc : escC c = ['\\', 'r'] := by
                          simp [escC, h34, h92, h8, h9, h10, h12, h13]
                        rw [hesc]
                        simp [unesc, escCode, ihf, h13]
                      · by_cases h32 : c.toNat < 32
                        · have hesc : escC c = '\\' :: 'u' :: hex4 c.toNat := by
                            simp [escC, h34, h92, h8, h9, h10, h12, h13, h32]
                          rw [hesc, hex4]
                          simp [unesc, List.append_eq,
                            hex4Val_hex4 c.toNat (by omega : c.toNat < 65536), ihf,
                            if_neg (by omega : ¬(55296 ≤ c.toNat ∧ c.toNat < 56320))]
                        · by_cases h127 : c.toNat < 127
                          · have hesc : escC c = [c] := by
                              simp [escC, h34, h92, h8, h9, h10, h12, h13, h32, h127]
                            have hq : ¬(c = '"') := fun hc => h34 (by rw [hc]; rfl)
                            have hb : ¬(c = '\\') := fun hc => h92 (by rw [hc]; rfl)
                            rw [hesc]
                            simp [unesc, hq, hb, ihf]
                          · by_cases h65536 : c.toNat < 65536
                            · have hesc : escC c = '\\' :: 'u' :: hex4 c.toNat := by
                                simp [escC, h34, h92, h8, h9, h10, h12, h13, h32,
                                  h127, h65536]
                              have hrange := char_range c
                              rw [hesc, hex4]
                              simp [unesc, List.append_eq,
                                hex4Val_hex4 c.toNat (by omega : c.toNat < 65536), ihf,
                                if_neg (by omega : ¬(55296 ≤ c.toNat ∧ c.toNat < 56320))]
                            · have hrange := char_range c
                              obtain ⟨hi, hhi⟩ :
                                  ∃ hi, hi = 55296 + (c.toNat - 65536) / 1024 :=
                                ⟨_, rfl⟩
                              obtain ⟨lo, hlo⟩ :
                                  ∃ lo, lo = 56320 + (c.toNat - 65536) % 1024 :=
                                ⟨_, rfl⟩
                              have hesc : escC c =
                                  '\\' :: 'u' :: hex4 hi ++ '\\' :: 'u' :: hex4 lo := by
                                rw [hhi, hlo]
                                simp [escC, h34, h92, h8, h9, h10, h12, h13, h32,
                                  h127, h65536]
                              rw [hesc, hex4, hex4]
                              simp [unesc, List.append_eq,
                                hex4Val_hex4 hi (by omega),
                                hex4Val_hex4 lo (by omega),
                                ihf]
                              rw [if_pos (by omega : 55296 ≤ hi ∧ hi < 56320)]
                              have harith2 : 65536 + (hi - 55296) * 1024 +
                                  (lo - 56320) = c.toNat := by
                                omega
                              simp [harith2]

/-- Strip an exact literal prefix. -/
def dropLit : List Char → List Char → Option (List Char)
  | [], l => some l
  | _ :: _, [] => none
  | c :: cs, x :: xs => if x = c then dropLit cs xs else none

/-- Stripping a literal off itself-plus-tail. -/
theorem dropLit_append (lit l : List Char) : dropLit lit (lit ++ l) = some l := by
  induction lit with
  | nil => rfl
  | cons c cs ih => simp [dropLit, ih]

/-- The decoded skeleton of a transaction: amount and the code points
of recipient and sender. -/
def txSkel (t : Transaction) : Int × List Nat × List Nat :=
  (t.amount, t.recipient.data.map Char.toNat, t.sender.data.map Char.toNat)

/-- Parse one serialized transaction object. -/
def parseTx (f : Nat) (l : List Char) :
    Option ((Int × List Nat × List Nat) × List Char) :=
  match dropLit ('\x7b' :: ("\"amount\": ").data) l with
  | none => none
  | some l1 =>
      match parseInt l1 with
      | none => none
      | some (a, l2) =>
          match dropLit ((", \"recipient\": ").data ++ ['"']) l2 with
          | none => none
          | some l3 =>
              match unesc f l3 with
              | none => none
              | some (r, l4) =>
                  match dropLit ((", \"sender\": ").data ++ ['"']) l4 with
                  | none => none
                  | some l5 =>
                      match unesc f l5 with
                      | none => none
                      | some (sn, l6) =>
                          match l6 with
                          | '\x7d' :: l7 => some ((a, r, sn), l7)
                          | _ => none

/-- `txString` followed by a tail, reassociated to expose the parse
steps. -/
theorem txString_assoc (t : Transaction) (rest : List Char) :
    txString t ++ rest =
      ('\x7b' :: ("\"amount\": ").data) ++ (intStr t.amount ++
        (((", \"recipient\": ").data ++ ['"']) ++ (esc t.recipient.data ++ '"' ::
          (((", \"sender\": ").data ++ ['"']) ++ (esc t.sender.data ++ '"' ::
            ('\x7d' :: rest)))))) := by
  simp [txString, jsonStr, List.append_assoc]

/-- The parser inverts the serializer on one transaction. -/
theorem parseTx_tx (t : Transaction) (rest : List Char) (f : Nat)
    (hf1 : t.recipient.data.length < f) (hf2 : t.sender.data.length < f) :
    parseTx f (txString t ++ rest) = some (txSkel t, rest) := by
  rw [txString_assoc]
  have h1 := dropLit_append ('\x7b' :: ("\"amount\": ").data)
    (intStr t.amount ++
      (((", \"recipient\": ").data ++ ['"']) ++ (esc t.recipient.data ++ '"' ::
        (((", \"sender\": ").data ++ ['"']) ++ (esc t.sender.data ++ '"' ::
          ('\x7d' :: rest))))))
  have hr2 : ∀ ch : Char,
      ((((", \"recipient\": ").data ++ ['"']) ++ (esc t.recipient.data ++ '"' ::
        (((", \"sender\": ").data ++ ['"']) ++ (esc t.sender.data ++ '"' ::
          ('\x7d' :: rest))))) : List Char).head? = some ch →
      digitVal ch = none := by
    intro ch hch
    rw [show ((((", \"recipient\": ").data ++ ['"']) ++ (esc t.recipient.data ++ '"' ::
        (((", \"sender\": ").data ++ ['"']) ++ (esc t.sender.data ++ '"' ::
          ('\x7d' :: rest))))) : List Char).head? = some ',' from rfl] at hch
    rw [Option.some_inj] at hch
    rw [← hch]
    rfl
  have h2 := parseInt_intStr t.amount
    (((", \"recipient\": ").data ++ ['"']) ++ (esc t.recipient.data ++ '"' ::
      (((", \"sender\": ").data ++ ['"']) ++ (esc t.sender.data ++ '"' ::
        ('\x7d' :: rest))))) hr2
  have h3 := dropLit_append ((", \"recipient\": ").data ++ ['"'])
    (esc t.recipient.data ++ '"' ::
      (((", \"sender\": ").data ++ ['"']) ++ (esc t.sender.data ++ '"' ::
        ('\x7d' :: rest))))
  have h4 := unesc_esc t.recipient.data f hf1
    (((", \"sender\": ").data ++ ['"']) ++ (esc t.sender.data ++ '"' ::
      ('\x7d' :: rest)))
  have h5 := dropLit_append ((", \"sender\": ").data ++ ['"'])
    (esc t.sender.data ++ '"' :: ('\x7d' :: rest))
  have h6 := unesc_esc t.sender.data f hf2 ('\x7d' :: rest)
  simp only [parseTx, h1, h2, h3, h4, h5, h6, txSkel]

/-- Parse a non-empty `", "`-separated sequence of transaction objects
up to the closing `]`. -/
def parseItems : Nat → Nat → List Char →
    Option (List (Int × List Nat × List Nat) × List Char)
  | 0, _, _ => none
  | fi + 1, g, l =>
      match parseTx g l with
      | none => none
      | some (it, r) =>
          match r with
          | ']' :: r2 => some ([it], r2)
          | ',' :: ' ' :: r2 =>
              match parseItems fi g r2 with
              | none => none
              | some (its, rest) => some (it :: its, rest)
          | _ => none

/-- The items parser inverts the serializer on a non-empty transaction
list. -/
theorem parseItems_round (l : List Transaction) : l ≠ [] →
    ∀ (rest : List Char) (fi g : Nat), l.length ≤ fi →
    (∀ t ∈ l, t.recipient.data.length < g ∧ t.sender.data.length < g) →
    parseItems fi g (sepByCommaSpace (l.map txString) ++ ']' :: rest) =
      some (l.map txSkel, rest) := by
  induction l with
  | nil => intro h; exact absurd rfl h
  | cons t l' ih =>
      intro _ rest fi g hfi hg
      rcases fi with _ | fi'
      · exact absurd hfi (by simp)
      · cases l' with
        | nil =>
            obtain ⟨hb1, hb2⟩ := hg t (List.mem_singleton_self t)
            have hp := parseTx_tx t (']' :: rest) g hb1 hb2
            simp only [List.map_cons, List.map_nil, sepByCommaSpace, parseItems, hp]
        | cons t' ts =>
            obtain ⟨hb1, hb2⟩ := hg t (List.mem_cons_self t (t' :: ts))
            have hp := parseTx_tx t
              (',' :: ' ' ::
                (sepByCommaSpace (txString t' :: List.map txString ts) ++
                  ']' :: rest)) g hb1 hb2
            have ih' := ih (by simp) rest fi' g
              (by simp only [List.length_cons] at hfi ⊢; omega)
              (fun q hq => hg q (List.mem_cons_of_mem t hq))
            simp only [List.map_cons] at ih'
            simp only [List.map_cons, sepByCommaSpace, List.append_assoc,
              List.cons_append, parseItems, hp, ih']

/-- The joined serialization of a non-empty transaction list is
non-empty. -/
theorem sepBy_txString_ne_nil (t : Transaction) (ts : List Transaction) :
    sepByCommaSpace (txString t :: List.map txString ts) ≠ [] := by
  cases ts <;> simp [sepByCommaSpace, txString]

/-- Per-transaction fuel bound for a list. -/
def gBound (l : List Transaction) : Nat :=
  (l.map fun t => t.recipient.data.length + t.sender.data.length).sum + 1

/-- `gBound` dominates every member's string lengths. -/
theorem gBound_bounds (l : List Transaction) :
    ∀ t ∈ l, t.recipient.data.length < gBound l ∧
      t.sender.data.length < gBound l := by
  intro t ht
  have hmem : t.recipient.data.length + t.sender.data.length ∈
      l.map fun q => q.recipient.data.length + q.sender.data.length :=
    List.mem_map_of_mem _ ht
  have hle := List.single_le_sum (fun x _ => Nat.zero_le x) _ hmem
  unfold gBound
  omega

/-- `Char.toNat` is injective. -/
theorem char_toNat_inj : Function.Injective Char.toNat := by
  intro a b hab
  exact Char.eq_of_val_eq (UInt32.ext hab)

/-- The decoded skeleton determines the transaction. -/
theorem txSkel_inj : Function.Injective txSkel := by
  intro a b hab
  obtain ⟨sa, ra, aa⟩ := a
  obtain ⟨sb, rb, ab⟩ := b
  simp only [txSkel, Prod.mk.injEq] at hab
  obtain ⟨h1, h2, h3⟩ := hab
  have hr : ra = rb := by
    apply String.ext
    exact (List.map_injective_iff.mpr char_toNat_inj) h2
  have hs : sa = sb := by
    apply String.ext
    exact (List.map_injective_iff.mpr char_toNat_inj) h3
  rw [h1, hr, hs]

/-- The serialized `transactions` array determines the transaction
list — for arbitrary strings, across escaping. -/
theorem txsString_inj (l₁ l₂ : List Transaction)
    (h : txsString l₁ = txsString l₂) : l₁ = l₂ := by
  rcases l₁ with _ | ⟨t₁, ts₁⟩ <;> rcases l₂ with _ | ⟨t₂, ts₂⟩
  · rfl
  · exfalso
    simp only [txsString, List.map_nil, List.map_cons, sepByCommaSpace,
      List.cons.injEq, List.nil_append, true_and] at h
    rcases hsb : sepByCommaSpace (txString t₂ :: List.map txString ts₂)
      with _ | ⟨c, cs⟩
    · exact sepBy_txString_ne_nil t₂ ts₂ hsb
    · rw [hsb] at h
      simp at h
  · exfalso
    simp only [txsString, List.map_nil, List.map_cons, sepByCommaSpace,
      List.cons.injEq, List.nil_append, true_and] at h
    rcases hsb : sepByCommaSpace (txString t₁ :: List.map txString ts₁)
      with _ | ⟨c, cs⟩
    · exact sepBy_txString_ne_nil t₁ ts₁ hsb
    · rw [hsb] at h
      simp at h
  · have hkey₁ := parseItems_round (t₁ :: ts₁) (by simp) []
      ((t₁ :: ts₁).length + (t₂ :: ts₂).length)
      (gBound (t₁ :: ts₁) + gBound (t₂ :: ts₂))
      (by omega)
      (fun q hq => by
        obtain ⟨hb1, hb2⟩ := gBound_bounds (t₁ :: ts₁) q hq
        omega)
    have hkey₂ := parseItems_round (t₂ :: ts₂) (by simp) []
      ((t₁ :: ts₁).length + (t₂ :: ts₂).length)
      (gBound (t₁ :: ts₁) + gBound (t₂ :: ts₂))
      (by omega)
      (fun q hq => by
        obtain ⟨hb1, hb2⟩ := gBound_bounds (t₂ :: ts₂) q hq
        omega)
    have harg : sepByCommaSpace ((t₁ :: ts₁).map txString) ++ ']' :: [] =
        sepByCommaSpace ((t₂ :: ts₂).map txString) ++ ']' :: [] := by
      simp only [txsString, List.cons.injEq] at h
      simpa using h
    rw [harg, hkey₂] at hkey₁
    rw [Option.some_inj, Prod.mk.injEq] at hkey₁
    exact ((List.map_injective_iff.mpr txSkel_inj) hkey₁.1).symm

/-- The whole-block serialization is injective in the `transactions`
component (all other fields held fixed). -/
theorem blockString_tx_inj (b : Block) (l : List Transaction)
    (h : blockString { b with transactions := l } = blockString b) :
    l = b.transactions := by
  simp only [blockString, List.cons.injEq, List.append_assoc, List.cons_append,
    List.append_cancel_left_eq, true_and] at h
  apply txsString_inj
  have h2 : txsString l ++ ['\x7d'] = txsString b.transactions ++ ['\x7d'] := by
    simpa using h
  exact List.append_cancel_right h2

set_option maxRecDepth 100000 in
/-- Claim C7: `hash` is deterministic — two blocks agreeing on all five
fields have equal digests (field-population order does not exist in the
embedding; the sorted-keys serialization makes it immaterial in the
source) — and transaction-order-sensitive: replacing the transaction
list by any different list (in particular any non-trivial permutation)
changes the canonical serialization; a digest change is exhibited on a
concrete permuted pair. -/
theorem claim_C7 (b₁ b₂ : Block) :
    (b₁.index = b₂.index → b₁.timestamp = b₂.timestamp →
      b₁.transactions = b₂.transactions → b₁.proof = b₂.proof →
      b₁.previous_hash = b₂.previous_hash → hash b₁ = hash b₂) ∧
    (∀ l : List Transaction, l ≠ b₁.transactions →
      blockString { b₁ with transactions := l } ≠ blockString b₁) ∧
    Blockchain.hash ⟨2, 5, [⟨"A", "B", 10⟩, ⟨"C", "D", -3⟩], 9, "ph"⟩ ≠
      Blockchain.hash ⟨2, 5, [⟨"C", "D", -3⟩, ⟨"A", "B", 10⟩], 9, "ph"⟩ := by
  refine ⟨?_, ?_, ?_⟩
  · intro h1 h2 h3 h4 h5
    obtain ⟨i₁, u₁, x₁, p₁, v₁⟩ := b₁
    obtain ⟨i₂, u₂, x₂, p₂, v₂⟩ := b₂
    simp only at h1 h2 h3 h4 h5
    rw [h1, h2, h3, h4, h5]
  · intro l hne hcon
    exact hne (blockString_tx_inj b₁ l hcon)
  · decide

set_option maxRecDepth 100000 in
/-- Witness for C7: determinism at a concrete pair of equal blocks, and
serialization order-sensitivity at a concrete transposed pair. -/
theorem claim_C7_witness :
    Blockchain.hash ⟨2, 5, [], 9, "ph"⟩ = Blockchain.hash ⟨2, 5, [], 9, "ph"⟩ ∧
    blockString { (⟨2, 5, [⟨"A", "B", 10⟩, ⟨"C", "D", -3⟩], 9, "ph"⟩ : Block) with
        transactions := [⟨"C", "D", -3⟩, ⟨"A", "B", 10⟩] } ≠
      blockString ⟨2, 5, [⟨"A", "B", 10⟩, ⟨"C", "D", -3⟩], 9, "ph"⟩ :=
  ⟨(claim_C7 ⟨2, 5, [], 9, "ph"⟩ ⟨2, 5, [], 9, "ph"⟩).1 rfl rfl rfl rfl rfl,
   (claim_C7 ⟨2, 5, [⟨"A", "B", 10⟩, ⟨"C", "D", -3⟩], 9, "ph"⟩
       ⟨2, 5, [⟨"A", "B", 10⟩, ⟨"C", "D", -3⟩], 9, "ph"⟩).2.1
     [⟨"C", "D", -3⟩, ⟨"A", "B", 10⟩] (by decide)⟩

/-- Witness for C4 on the singleton genesis chain: validation succeeds
and the pairwise property holds vacuously. -/
theorem claim_C4_witness :
    validate_chain [genesisBlock 0] = some true ↔
      ∀ i, (hi : i < [genesisBlock 0].length) → 0 < i →
        (([genesisBlock 0].get ⟨i, hi⟩).previous_hash =
            hash ([genesisBlock 0].get ⟨i - 1, by omega⟩) ∧
          validate_proof ([genesisBlock 0].get ⟨i - 1, by omega⟩).proof
            ([genesisBlock 0].get ⟨i, hi⟩).proof = true) :=
  claim_C4 [genesisBlock 0] (by simp)

end BCT
